import Mathlib

/-!
# Verification of the result-shaping and metric-derivation pipeline

This file gives a shallow embedding, in Lean 4, of the computational core of
the Streamlit business-intelligence dashboard (files `utils.py`,
`finance_dashboard.py`, `user_dashboard.py`, `admin_dashboard.py`,
`marketing_dashboard.py`), and proves or refutes the specified properties of
that core.

Modelling conventions:
* numeric scalars are modelled as `ℚ` (the dashboards' arithmetic is exact
  decimal/float arithmetic on database values; no overflow semantics are
  involved in the claims);
* a pandas `NaN` (and any non-finite value arising from division by zero) is
  modelled as `none : Option ℚ`;
* a Python exception that escapes a function is modelled as `Except.error`;
* row sets are lists of rows in result order; a row is a mapping from column
  name to nullable scalar.
-/

/-- A raw result row: column name → nullable scalar, as produced by a
`dictionary=True` cursor (`utils.py`, `call_stored_procedure`). -/
def RawRow : Type := List (String × Option ℚ)

/-- The behaviour of one database connection, as seen by
`call_stored_procedure` (`utils.py` lines 8-42): whether
`_conn.cursor(dictionary=True)` (line 25, *outside* the `try` block)
succeeds, and what the guarded body (`callproc` + `stored_results`)
does — either it raises (`Except.error`) or it yields the list of result
sets. -/
structure Conn where
  cursorOk : Bool
  callOutcome : Except Unit (List (List RawRow))

/-- Shallow embedding of `utils.call_stored_procedure` (`utils.py` lines
8-42).  `none` models a null/absent connection (`if not _conn: return []`).
For a present connection, the cursor is acquired *before* the `try` block,
so a failure there propagates (`Except.error`); inside the `try`, any
exception is caught and `[]` is returned, and otherwise the first result
set (or `[]` when there is none) is returned. -/
def call_stored_procedure (conn : Option Conn) : Except Unit (List RawRow) :=
  match conn with
  | none => Except.ok []
  | some c =>
    if c.cursorOk then
      match c.callOutcome with
      | Except.error _ => Except.ok []
      | Except.ok sets => Except.ok (sets.headD [])
    else Except.error ()

/-- One step of the month-over-month growth computation of
`finance_dashboard.py` lines 32-36:
`(TotalRevenue - PrevRevenue) / PrevRevenue.replace(0, np.nan) * 100`,
elementwise.  `none` models `NaN`: a null previous value, a previous value
of `0` (replaced by `NaN`), or a null current value all give `NaN`. -/
def growthStep : Option ℚ → Option ℚ → Option ℚ
  | some p, some c => if p = 0 then none else some ((c - p) / p * 100)
  | _, _ => none

/-- The growth column computed against the shifted (`shift(1)`) column:
`pctChange prev vals` pairs every element of `vals` with its predecessor
(`prev` for the first element) and applies `growthStep`. -/
def pctChange : Option ℚ → List (Option ℚ) → List (Option ℚ)
  | _, [] => []
  | prev, c :: rest => growthStep prev c :: pctChange c rest

/-- Embedding of `df_revenue['MonthlyGrowth']` of `finance_dashboard.py` lines 32-36: the
predecessor of the first row after `shift(1)` is `NaN`. -/
def monthlyGrowth (vals : List (Option ℚ)) : List (Option ℚ) :=
  pctChange none vals

theorem pctChange_length (prev : Option ℚ) (vals : List (Option ℚ)) :
    (pctChange prev vals).length = vals.length := by
  induction vals generalizing prev with
  | nil => rfl
  | cons c rest ih => simpa [pctChange] using ih c

theorem pctChange_get_succ (vals : List (Option ℚ)) (prev : Option ℚ) (i : ℕ) :
    (pctChange prev vals).get? (i + 1) =
      match vals.get? i, vals.get? (i + 1) with
      | some p, some c => some (growthStep p c)
      | _, _ => none := by
  induction vals generalizing prev i with
  | nil => rfl
  | cons c rest ih =>
    cases i with
    | zero =>
      cases rest with
      | nil => rfl
      | cons d r2 => rfl
    | succ j =>
      simpa [pctChange] using ih c j

/-- C1.  For every period series, the period-over-period change at each
position `i > 0` equals `(value[i]/value[i-1] - 1) * 100`; it is null
whenever the preceding value is `0` or null; the change at position `0` is
always null; and on an empty or single-element series the computation does
not fail and returns an all-null result
(`finance_dashboard.py` lines 28-36). -/
theorem monthlyGrowth_spec (vals : List (Option ℚ)) :
    (monthlyGrowth vals).length = vals.length
    ∧ (monthlyGrowth vals).get? 0 = (vals.get? 0).map (fun _ => none)
    ∧ (vals.length ≤ 1 → monthlyGrowth vals = vals.map (fun _ => none))
    ∧ (∀ i p v, vals.get? i = some (some p) → vals.get? (i + 1) = some (some v) →
        p ≠ 0 → (monthlyGrowth vals).get? (i + 1) = some (some ((v / p - 1) * 100)))
    ∧ (∀ i, vals.get? i = some (some 0) → i + 1 < vals.length →
        (monthlyGrowth vals).get? (i + 1) = some none)
    ∧ (∀ i, vals.get? i = some none → i + 1 < vals.length →
        (monthlyGrowth vals).get? (i + 1) = some none) := by
  refine ⟨pctChange_length none vals, ?_, ?_, ?_, ?_, ?_⟩
  · cases vals with
    | nil => rfl
    | cons c rest => rfl
  · intro hlen
    match vals, hlen with
    | [], _ => rfl
    | [c], _ => simp [monthlyGrowth, pctChange, growthStep]
  · intro i p v hp hv hpz
    have h := pctChange_get_succ vals none i
    rw [hp, hv] at h
    rw [monthlyGrowth, h]
    simp [growthStep, hpz]
    field_simp
  · intro i h0 hlt
    have h := pctChange_get_succ vals none i
    rw [h0] at h
    obtain ⟨c, hc⟩ : ∃ c, vals.get? (i + 1) = some c := ⟨_, List.get?_eq_get hlt⟩
    rw [hc] at h
    rw [monthlyGrowth, h]
    cases c with
    | none => simp [growthStep]
    | some cv => simp [growthStep]
  · intro i h0 hlt
    have h := pctChange_get_succ vals none i
    rw [h0] at h
    obtain ⟨c, hc⟩ : ∃ c, vals.get? (i + 1) = some c := ⟨_, List.get?_eq_get hlt⟩
    rw [hc] at h
    rw [monthlyGrowth, h]
    cases c with
    | none => simp [growthStep]
    | some cv => simp [growthStep]

/-- Witness for C1 at the spec's example series
`[{month:'2024-01',Revenue:100},{month:'2024-02',Revenue:150}]`:
the growth at position 1 is `50.0`. -/
theorem monthlyGrowth_spec_witness :
    (monthlyGrowth [some (100 : ℚ), some 150]).get? 1 = some (some 50) := by
  have h := (monthlyGrowth_spec [some (100 : ℚ), some 150]).2.2.2.1 0 100 150
    rfl rfl (by norm_num)
  norm_num at h
  exact h

/-- Round-half-to-even of a rational, as `numpy.round` / `pandas.Series.round`
round a scalar to the nearest integer (ties to the even neighbour). -/
def roundHalfEven (x : ℚ) : ℤ :=
  if x - ⌊x⌋ < 1 / 2 then ⌊x⌋
  else if 1 / 2 < x - ⌊x⌋ then ⌊x⌋ + 1
  else if ⌊x⌋ % 2 = 0 then ⌊x⌋ else ⌊x⌋ + 1

/-- Embedding of `Series.round(2)`: round to two decimal places, ties to even. -/
def round2 (x : ℚ) : ℚ := (roundHalfEven (x * 100) : ℚ) / 100

/-- Shallow embedding of the share-of-total computation of
`finance_dashboard.py` lines 419-420:
`df_tiers['Percentage'] = (df_tiers['UserCount'] / total_users * 100).round(2)`
where `total_users = df_tiers['UserCount'].sum()`.  When the column sum is
`0`, pandas' division produces a non-finite value (`0/0 = NaN`, `x/0 = inf`)
in every row, modelled as `none`; otherwise each row receives its exact
share rounded to two decimals. -/
def shareOfTotal (vals : List ℚ) : List (Option ℚ) :=
  if vals.sum = 0 then vals.map (fun _ => none)
  else vals.map (fun v => some (round2 (v / vals.sum * 100)))

theorem roundHalfEven_close (x : ℚ) : |(roundHalfEven x : ℚ) - x| ≤ 1 / 2 := by
  have hfl : (⌊x⌋ : ℚ) ≤ x := Int.floor_le x
  have hfu : x < ⌊x⌋ + 1 := Int.lt_floor_add_one x
  rw [roundHalfEven]
  split
  · rename_i h1
    rw [abs_sub_comm, abs_of_nonneg (by linarith)]
    linarith
  · rename_i h1
    push_neg at h1
    split
    · rename_i h2
      push_cast
      rw [abs_of_nonneg (by linarith)]
      linarith
    · rename_i h2
      push_neg at h2
      split
      · rw [abs_sub_comm, abs_of_nonneg (by linarith)]
        linarith
      · push_cast
        rw [abs_of_nonneg (by linarith)]
        linarith

theorem round2_close (x : ℚ) : |round2 x - x| ≤ 1 / 200 := by
  have h := roundHalfEven_close (x * 100)
  rw [round2]
  have hx : (roundHalfEven (x * 100) : ℚ) / 100 - x
      = ((roundHalfEven (x * 100) : ℚ) - x * 100) / 100 := by ring
  rw [hx, abs_div, abs_of_pos (by norm_num : (0 : ℚ) < 100)]
  linarith

theorem sum_map_mul_const (l : List ℚ) (c : ℚ) :
    (l.map (fun v => v * c)).sum = l.sum * c := by
  induction l with
  | nil => simp
  | cons a t ih => simp [ih, add_mul]

/-- C2, counterexample to the claim as stated
(`finance_dashboard.py` lines 419-420).  First: when the column sum is `0`
(row set with a single `UserCount = 0` row), the computed share is `NaN`
(modelled `none`), not `0`.  Second: for three equal rows the stored shares
are the rounded values `33.33`, which sum to `99.99`, not `100` within
floating tolerance. -/
theorem shareOfTotal_counterexample :
    (¬ ∀ x ∈ shareOfTotal [(0 : ℚ)], x = some 0)
    ∧ ((shareOfTotal [(1 : ℚ), 1, 1]).map (fun o => o.getD 0)).sum = 9999 / 100 := by
  constructor
  · intro hall
    have h := hall none (by simp [shareOfTotal])
    exact Option.noConfusion h
  · have hr : round2 ((100 : ℚ) / 3) = 3333 / 100 := by
      rw [round2]
      have h1 : ((100 : ℚ) / 3) * 100 = 10000 / 3 := by norm_num
      rw [h1]
      have hfl : ⌊((10000 : ℚ) / 3)⌋ = 3333 :=
        Int.floor_eq_iff.mpr ⟨by norm_num, by norm_num⟩
      rw [roundHalfEven, hfl]
      norm_num
    have hsum : ([(1 : ℚ), 1, 1]).sum = 3 := by norm_num
    simp only [shareOfTotal, hsum]
    rw [if_neg (by norm_num)]
    have harg : (1 : ℚ) / 3 * 100 = 100 / 3 := by norm_num
    simp only [List.map, harg, hr, Option.getD]
    norm_num

/-- C2 (amended).  `share_of_total` assigns each row
`round(value/sum * 100, 2)` (two decimals, ties to even); when the column
sum is `0` every share is `NaN` (modelled `none`), not `0`; when the sum is
nonzero the *unrounded* shares sum to exactly `100`, and each stored share
differs from its unrounded value by at most `0.005`
(`finance_dashboard.py` lines 419-420). -/
theorem shareOfTotal_spec (vals : List ℚ) :
    (vals.sum = 0 → shareOfTotal vals = vals.map (fun _ => none))
    ∧ (vals.sum ≠ 0 → shareOfTotal vals = vals.map (fun v => some (round2 (v / vals.sum * 100))))
    ∧ (vals.sum ≠ 0 → (vals.map (fun v => v / vals.sum * 100)).sum = 100)
    ∧ (∀ x : ℚ, |round2 x - x| ≤ 1 / 200) := by
  refine ⟨?_, ?_, ?_, round2_close⟩
  · intro h
    simp [shareOfTotal, h]
  · intro h
    simp [shareOfTotal, h]
  · intro h
    have hfun : (fun v => v / vals.sum * 100) = fun v => v * (100 / vals.sum) := by
      funext v
      ring
    rw [hfun, sum_map_mul_const]
    field_simp

/-- Witness for C2 at the row set `[1, 1, 1]` (nonzero sum): the unrounded
shares sum to exactly `100`. -/
theorem shareOfTotal_spec_witness :
    (([(1 : ℚ), 1, 1]).map (fun v => v / ([(1 : ℚ), 1, 1]).sum * 100)).sum = 100 :=
  (shareOfTotal_spec [(1 : ℚ), 1, 1]).2.2.1 (by norm_num)

/-- Embedding of `series.max()` over a column, `none` for an empty column. -/
def listMax : List ℚ → Option ℚ
  | [] => none
  | a :: t =>
    some (match listMax t with
          | none => a
          | some m => max a m)

/-- Embedding of `series.min()` over a column, `none` for an empty column. -/
def listMin : List ℚ → Option ℚ
  | [] => none
  | a :: t =>
    some (match listMin t with
          | none => a
          | some m => min a m)

theorem listMax_mem_le (l : List ℚ) (m : ℚ) (h : listMax l = some m) :
    m ∈ l ∧ ∀ x ∈ l, x ≤ m := by
  induction l generalizing m with
  | nil => exact absurd h (by simp [listMax])
  | cons a t ih =>
    cases ht : listMax t with
    | none =>
      cases t with
      | nil =>
        rw [listMax] at h
        simp at h
        subst h
        simp [listMax]
      | cons b r => simp [listMax] at ht
    | some mt =>
      rw [listMax, ht] at h
      simp at h
      obtain ⟨hmem, hle⟩ := ih mt ht
      subst h
      constructor
      · rcases max_choice a mt with hc | hc
        · rw [hc]; exact List.mem_cons_self a t
        · rw [hc]; exact List.mem_cons_of_mem a hmem
      · intro x hx
        rcases List.mem_cons.mp hx with rfl | hx
        · exact le_max_left _ _
        · exact le_trans (hle x hx) (le_max_right _ _)

theorem listMin_mem_le (l : List ℚ) (m : ℚ) (h : listMin l = some m) :
    m ∈ l ∧ ∀ x ∈ l, m ≤ x := by
  induction l generalizing m with
  | nil => exact absurd h (by simp [listMin])
  | cons a t ih =>
    cases ht : listMin t with
    | none =>
      cases t with
      | nil =>
        rw [listMin] at h
        simp at h
        subst h
        simp [listMin]
      | cons b r => simp [listMin] at ht
    | some mt =>
      rw [listMin, ht] at h
      simp at h
      obtain ⟨hmem, hle⟩ := ih mt ht
      subst h
      constructor
      · rcases min_choice a mt with hc | hc
        · rw [hc]; exact List.mem_cons_self a t
        · rw [hc]; exact List.mem_cons_of_mem a hmem
      · intro x hx
        rcases List.mem_cons.mp hx with rfl | hx
        · exact min_le_left _ _
        · exact le_trans (min_le_right _ _) (hle x hx)

/-- The 0-100 normalization actually used for cross-metric comparison
(`marketing_dashboard.py` lines 266-272 and `admin_dashboard.py` lines
465-472): `max_val = series.max(); if max_val > 0: v / max_val * 100
else: 0`, per value group.  It is a percent-of-maximum, not a min-max
rescale. -/
def normalizePctOfMax (vals : List ℚ) : List ℚ :=
  match listMax vals with
  | none => []
  | some m => if 0 < m then vals.map (fun v => v / m * 100) else vals.map (fun _ => 0)

/-- C5, counterexample to the claim as stated: on the group `[50, 100]`
(max ≠ min) the code produces `[50, 100]`, while the claimed min-max
rescale `((v - min)/(max - min)) * 100` produces `[0, 100]`; in particular
the group's minimum does not map to `0`. -/
theorem normalizePctOfMax_counterexample :
    normalizePctOfMax [(50 : ℚ), 100] = [50, 100]
    ∧ normalizePctOfMax [(50 : ℚ), 100]
        ≠ [((50 : ℚ) - 50) / (100 - 50) * 100, ((100 : ℚ) - 50) / (100 - 50) * 100] := by
  constructor
  · norm_num [normalizePctOfMax, listMax]
  · norm_num [normalizePctOfMax, listMax]

/-- C5 (amended).  The 0-100 normalization used for cross-metric comparison
maps each value `v` of a group to `(v / max) * 100` with the group's own
maximum (and every value to `0` when the group maximum is not positive):
the group maximum maps to `100` when it is positive, and every value is
bounded by its group maximum — but the group minimum maps to
`min/max * 100`, not to `0` in general
(`marketing_dashboard.py` lines 266-272, `admin_dashboard.py` lines
465-472). -/
theorem normalizePctOfMax_spec (vals : List ℚ) (m : ℚ) (hm : listMax vals = some m) :
    (0 < m → normalizePctOfMax vals = vals.map (fun v => v / m * 100))
    ∧ (0 < m → ∀ i, vals.get? i = some m →
        (normalizePctOfMax vals).get? i = some 100)
    ∧ (¬ 0 < m → normalizePctOfMax vals = vals.map (fun _ => 0))
    ∧ (∀ x ∈ vals, x ≤ m) := by
  refine ⟨?_, ?_, ?_, (listMax_mem_le vals m hm).2⟩
  · intro hpos
    simp [normalizePctOfMax, hm, hpos]
  · intro hpos i hi
    have hne : m ≠ 0 := ne_of_gt hpos
    have hmap : normalizePctOfMax vals = vals.map (fun v => v / m * 100) := by
      simp [normalizePctOfMax, hm, hpos]
    rw [hmap, List.get?_map, hi]
    have hd : m / m = 1 := div_self hne
    simp [hd]
  · intro hpos
    simp [normalizePctOfMax, hm, hpos]

/-- Witness for C5 (amended) at the group `[50, 100]`: the group's maximum
`100` (at position 1) maps to `100`. -/
theorem normalizePctOfMax_spec_witness :
    (normalizePctOfMax [(50 : ℚ), 100]).get? 1 = some 100 :=
  (normalizePctOfMax_spec [(50 : ℚ), 100] 100 (by norm_num [listMax])).2.1
    (by norm_num) 1 rfl

/-- Shallow embedding of `utils.normalize_series` (`utils.py` lines
146-150): a min-max rescale of a series to 0-100, with every element sent
to `50` when the series maximum equals the series minimum.  On an empty
series pandas compares `NaN == NaN` (false) and the rescale of an empty
series is empty. -/
def normalize_series (s : List ℚ) : List ℚ :=
  match listMax s, listMin s with
  | some mx, some mn =>
    if mx = mn then s.map (fun _ => 50)
    else s.map (fun v => (v - mn) / (mx - mn) * 100)
  | _, _ => []

/-- C6.  For every value group whose maximum equals its minimum,
`normalize_series` returns `50` for every element — never `0`, `NaN` or an
error (`utils.py` lines 146-150). -/
theorem normalize_series_spec (s : List ℚ) (m : ℚ)
    (hmax : listMax s = some m) (hmin : listMin s = some m) :
    normalize_series s = s.map (fun _ => 50)
    ∧ ∀ x ∈ normalize_series s, x = 50 := by
  have h : normalize_series s = s.map (fun _ => 50) := by
    simp [normalize_series, hmax, hmin]
  refine ⟨h, ?_⟩
  intro x hx
  rw [h] at hx
  rcases List.mem_map.mp hx with ⟨y, hy, hxy⟩
  exact hxy.symm

/-- Witness for C6 at the constant group `[7, 7]` (max = min = 7): the
result is `[50, 50]`. -/
theorem normalize_series_spec_witness :
    normalize_series [(7 : ℚ), 7] = [50, 50] := by
  have h := (normalize_series_spec [(7 : ℚ), 7] 7 (by norm_num [listMax])
    (by norm_num [listMin])).1
  simpa using h

/-- Embedding of `Series.idxmax()` on a positionally-indexed column
(`admin_dashboard.py` lines 221-226): the index of the first occurrence of
the maximum, `none` for an empty column. -/
def idxmax : List ℚ → Option ℕ
  | [] => none
  | a :: t =>
    match listMax t, idxmax t with
    | some m, some j => if a < m then some (j + 1) else some 0
    | _, _ => some 0

/-- Embedding of `Series.idxmin()` on a positionally-indexed column
(`admin_dashboard.py` lines 228-233): the index of the first occurrence of
the minimum, `none` for an empty column. -/
def idxmin : List ℚ → Option ℕ
  | [] => none
  | a :: t =>
    match listMin t, idxmin t with
    | some m, some j => if m < a then some (j + 1) else some 0
    | _, _ => some 0

theorem listMax_eq_none (l : List ℚ) : listMax l = none ↔ l = [] := by
  cases l with
  | nil => simp [listMax]
  | cons a t => simp [listMax]

theorem listMin_eq_none (l : List ℚ) : listMin l = none ↔ l = [] := by
  cases l with
  | nil => simp [listMin]
  | cons a t => simp [listMin]

theorem idxmax_eq_none (l : List ℚ) : idxmax l = none ↔ l = [] := by
  cases l with
  | nil => simp [idxmax]
  | cons a t =>
    simp only [idxmax]
    constructor
    · intro h
      cases h1 : listMax t with
      | none =>
        rw [h1] at h
        cases h2 : idxmax t with
        | none => rw [h2] at h; exact Option.noConfusion h
        | some j => rw [h2] at h; exact Option.noConfusion h
      | some m =>
        rw [h1] at h
        cases h2 : idxmax t with
        | none => rw [h2] at h; exact Option.noConfusion h
        | some j =>
          rw [h2] at h
          have h3 : (if a < m then some (j + 1) else some 0 : Option ℕ) = none := h
          by_cases hc : a < m
          · rw [if_pos hc] at h3; exact Option.noConfusion h3
          · rw [if_neg hc] at h3; exact Option.noConfusion h3
    · intro h
      exact List.noConfusion h

theorem idxmin_eq_none (l : List ℚ) : idxmin l = none ↔ l = [] := by
  cases l with
  | nil => simp [idxmin]
  | cons a t =>
    simp only [idxmin]
    constructor
    · intro h
      cases h1 : listMin t with
      | none =>
        rw [h1] at h
        cases h2 : idxmin t with
        | none => rw [h2] at h; exact Option.noConfusion h
        | some j => rw [h2] at h; exact Option.noConfusion h
      | some m =>
        rw [h1] at h
        cases h2 : idxmin t with
        | none => rw [h2] at h; exact Option.noConfusion h
        | some j =>
          rw [h2] at h
          have h3 : (if m < a then some (j + 1) else some 0 : Option ℕ) = none := h
          by_cases hc : m < a
          · rw [if_pos hc] at h3; exact Option.noConfusion h3
          · rw [if_neg hc] at h3; exact Option.noConfusion h3
    · intro h
      exact List.noConfusion h

theorem idxmax_first (l : List ℚ) (i : ℕ) (h : idxmax l = some i) :
    ∃ m, listMax l = some m ∧ l.get? i = some m
      ∧ ∀ j x, j < i → l.get? j = some x → x < m := by
  induction l generalizing i with
  | nil => exact absurd h (by simp [idxmax])
  | cons a t ih =>
    cases ht : listMax t with
    | none =>
      have htnil : t = [] := (listMax_eq_none t).mp ht
      subst htnil
      simp [idxmax, listMax] at h
      subst h
      refine ⟨a, by simp [listMax], by simp, ?_⟩
      intro j x hj
      exact absurd hj (Nat.not_lt_zero j)
    | some mt =>
      cases hidx : idxmax t with
      | none =>
        have : t = [] := (idxmax_eq_none t).mp hidx
        subst this
        simp [listMax] at ht
      | some j =>
        rw [idxmax, ht, hidx] at h
        have h3 : (if a < mt then some (j + 1) else some 0 : Option ℕ) = some i := h
        by_cases hc : a < mt
        · rw [if_pos hc] at h3
          simp at h3
          subst h3
          obtain ⟨mt2, hmt2, hget, hmin⟩ := ih j hidx
          rw [ht] at hmt2
          rw [← Option.some.inj hmt2] at hget hmin
          refine ⟨max a mt, by rw [listMax, ht], ?_, ?_⟩
          · rw [max_eq_right (le_of_lt hc)]
            simpa using hget
          · intro j2 x hj2 hx
            cases j2 with
            | zero =>
              simp at hx
              subst hx
              rw [max_eq_right (le_of_lt hc)]
              exact hc
            | succ j3 =>
              rw [max_eq_right (le_of_lt hc)]
              exact hmin j3 x (Nat.succ_lt_succ_iff.mp hj2) (by simpa using hx)
        · rw [if_neg hc] at h3
          simp at h3
          subst h3
          have hle : mt ≤ a := le_of_not_lt hc
          refine ⟨max a mt, by rw [listMax, ht], ?_, ?_⟩
          · rw [max_eq_left hle]
            simp
          · intro j2 x hj2
            exact absurd hj2 (Nat.not_lt_zero j2)

theorem idxmin_first (l : List ℚ) (i : ℕ) (h : idxmin l = some i) :
    ∃ m, listMin l = some m ∧ l.get? i = some m
      ∧ ∀ j x, j < i → l.get? j = some x → m < x := by
  induction l generalizing i with
  | nil => exact absurd h (by simp [idxmin])
  | cons a t ih =>
    cases ht : listMin t with
    | none =>
      have htnil : t = [] := (listMin_eq_none t).mp ht
      subst htnil
      simp [idxmin, listMin] at h
      subst h
      refine ⟨a, by simp [listMin], by simp, ?_⟩
      intro j x hj
      exact absurd hj (Nat.not_lt_zero j)
    | some mt =>
      cases hidx : idxmin t with
      | none =>
        have : t = [] := (idxmin_eq_none t).mp hidx
        subst this
        simp [listMin] at ht
      | some j =>
        rw [idxmin, ht, hidx] at h
        have h3 : (if mt < a then some (j + 1) else some 0 : Option ℕ) = some i := h
        by_cases hc : mt < a
        · rw [if_pos hc] at h3
          simp at h3
          subst h3
          obtain ⟨mt2, hmt2, hget, hmin⟩ := ih j hidx
          rw [ht] at hmt2
          rw [← Option.some.inj hmt2] at hget hmin
          refine ⟨min a mt, by rw [listMin, ht], ?_, ?_⟩
          · rw [min_eq_right (le_of_lt hc)]
            simpa using hget
          · intro j2 x hj2 hx
            cases j2 with
            | zero =>
              simp at hx
              subst hx
              rw [min_eq_right (le_of_lt hc)]
              exact hc
            | succ j3 =>
              rw [min_eq_right (le_of_lt hc)]
              exact hmin j3 x (Nat.succ_lt_succ_iff.mp hj2) (by simpa using hx)
        · rw [if_neg hc] at h3
          simp at h3
          subst h3
          have hle : a ≤ mt := le_of_not_lt hc
          refine ⟨min a mt, by rw [listMin, ht], ?_, ?_⟩
          · rw [min_eq_left hle]
            simp
          · intro j2 x hj2
            exact absurd hj2 (Nat.not_lt_zero j2)

/-- The max/min row annotation of the category-comparison table
(`admin_dashboard.py` lines 221-237): for an ordinary field the annotation
is `(idxmax, idxmin)`; for a field in `invert_fields` (the discount
percentage, where lower is better) the two assignments are swapped:
`max_indices[F] = idxmin(F)` and `min_indices[F] = idxmax(F)`. -/
def minMaxAnnotate (vals : List ℚ) (inverted : Bool) : Option ℕ × Option ℕ :=
  if inverted then (idxmin vals, idxmax vals) else (idxmax vals, idxmin vals)

/-- C7.  For every field, the inverted call of `minMaxAnnotate` yields
exactly the max/min indices swapped relative to the non-inverted call on
identical input, and in both calls ties are resolved to the first
occurrence in input order: the returned max (resp. min) index carries the
column maximum (resp. minimum), and every strictly earlier row carries a
strictly smaller (resp. larger) value
(`admin_dashboard.py` lines 221-237). -/
theorem minMaxAnnotate_spec (vals : List ℚ) :
    (minMaxAnnotate vals true).1 = (minMaxAnnotate vals false).2
    ∧ (minMaxAnnotate vals true).2 = (minMaxAnnotate vals false).1
    ∧ (∀ i, (minMaxAnnotate vals false).1 = some i →
        ∃ m, listMax vals = some m ∧ vals.get? i = some m
          ∧ ∀ j x, j < i → vals.get? j = some x → x < m)
    ∧ (∀ i, (minMaxAnnotate vals false).2 = some i →
        ∃ m, listMin vals = some m ∧ vals.get? i = some m
          ∧ ∀ j x, j < i → vals.get? j = some x → m < x) := by
  refine ⟨rfl, rfl, ?_, ?_⟩
  · intro i h
    exact idxmax_first vals i h
  · intro i h
    exact idxmin_first vals i h

/-- Witness for C7 at the spec's example column `Revenue = [100, 300, 100]`:
the non-inverted max index is 1 and it holds the maximum `300`, with every
earlier row strictly smaller. -/
theorem minMaxAnnotate_spec_witness :
    ∃ m, listMax [(100 : ℚ), 300, 100] = some m
      ∧ [(100 : ℚ), 300, 100].get? 1 = some m
      ∧ ∀ j x, j < 1 → [(100 : ℚ), 300, 100].get? j = some x → x < m :=
  (minMaxAnnotate_spec [(100 : ℚ), 300, 100]).2.2.1 1 (by norm_num [minMaxAnnotate, idxmax, listMax])

/-- One row of a monthly result set (`'Month'` as `'YYYY-MM'`, here split
into its year and month numbers, plus the metric value).  `pd.to_datetime
(df['Month'] + '-01')` turns the label into the first-of-month date, whose
chronological order is the lexicographic order on (year, month). -/
structure MonthRow where
  year : ℕ
  mon : ℕ
  revenue : ℚ
deriving DecidableEq

/-- The sort key produced by `pd.to_datetime(Month + '-01')`: first-of-month
dates compare exactly like `year * 12 + month`. -/
def monthKey (r : MonthRow) : ℕ := r.year * 12 + r.mon

/-- The ascending order used by `sort_values('MonthDate')`
(`finance_dashboard.py` line 29) and `sort_values('Month')`
(`admin_dashboard.py` line 43). -/
def rowLE (a b : MonthRow) : Prop := monthKey a ≤ monthKey b

instance : DecidableRel rowLE := fun a b => Nat.decLe (monthKey a) (monthKey b)

instance : IsTotal MonthRow rowLE := ⟨fun a b => Nat.le_total (monthKey a) (monthKey b)⟩

instance : IsTrans MonthRow rowLE := ⟨fun _ _ _ => Nat.le_trans⟩

/-- The ascending sort of the month rows (tie order is irrelevant here:
distinct rows of one result set have distinct months). -/
def sortByMonth (rows : List MonthRow) : List MonthRow :=
  List.insertionSort rowLE rows

/-- The finance monthly-trend pipeline (`finance_dashboard.py` lines 28-36):
sort by the month date, then compute the shifted growth column. -/
def monthlyRevenueTrend (rows : List MonthRow) : List (Option ℚ) :=
  monthlyGrowth ((sortByMonth rows).map (fun r => some r.revenue))

/-- The admin month-over-month change (`admin_dashboard.py` lines 41-50):
sort by month, then compare the last row against the one before it
(`iloc[-1]` / `iloc[-2]`); `0` when fewer than two rows. -/
def adminRevenueChange (rows : List MonthRow) : ℚ :=
  match (sortByMonth rows).reverse with
  | cur :: prev :: _ => (cur.revenue / prev.revenue - 1) * 100
  | _ => 0

/-- C9.  Every period series used in trend or growth-rate computation is
sorted ascending by the calendar key before any shift or delta is taken:
the sorted list is ordered by `monthKey`, it is a permutation of the input
rows, both the finance growth column and the admin latest-month change are
computed from the sorted list, and the key is an unambiguous calendar
order — for genuine months (`1 ≤ mon ≤ 12`) it agrees with lexicographic
(year, month) order (`finance_dashboard.py` lines 28-36,
`admin_dashboard.py` lines 41-50). -/
theorem sortedBeforeDelta_spec (rows : List MonthRow) :
    List.Sorted rowLE (sortByMonth rows)
    ∧ (sortByMonth rows).Perm rows
    ∧ monthlyRevenueTrend rows
        = monthlyGrowth ((sortByMonth rows).map (fun r => some r.revenue))
    ∧ adminRevenueChange rows
        = (match (sortByMonth rows).reverse with
           | cur :: prev :: _ => (cur.revenue / prev.revenue - 1) * 100
           | _ => 0)
    ∧ (∀ a b : MonthRow, 1 ≤ a.mon → a.mon ≤ 12 → 1 ≤ b.mon → b.mon ≤ 12 →
        (monthKey a < monthKey b
          ↔ (a.year < b.year ∨ (a.year = b.year ∧ a.mon < b.mon)))) := by
  refine ⟨List.sorted_insertionSort rowLE rows, List.perm_insertionSort rowLE rows,
    rfl, rfl, ?_⟩
  intro a b h1 h2 h3 h4
  simp only [monthKey]
  omega

/-- Witness for C9: December 2023 sorts strictly before January 2024 under
the calendar key, matching lexicographic (year, month) order. -/
theorem sortedBeforeDelta_spec_witness :
    monthKey ⟨2023, 12, 0⟩ < monthKey ⟨2024, 1, 0⟩
      ↔ (2023 < 2024 ∨ (2023 = 2024 ∧ 12 < 1)) :=
  (sortedBeforeDelta_spec []).2.2.2.2 ⟨2023, 12, 0⟩ ⟨2024, 1, 0⟩
    (by norm_num) (by norm_num) (by norm_num) (by norm_num)

/-- The rendered outcome of one dashboard section: a chart built from that
section's own fetched rows, an informational empty-data placeholder
(`st.info`), nothing at all (sections whose guard has no `else` branch),
or the page-level error of the marketing category prelude (`st.error` +
`return`). -/
inductive Out where
  | chart (tag : ℕ) (data : List RawRow)
  | info (tag : ℕ)
  | skip
  | err

/-- The section sequence of `user_dashboard.py`: four sections, each one
`data = call_stored_procedure(...)` followed by
`if data and len(data) > 0: <render charts> [else: st.info(...)]`
executed one after the other with no early return
(provinces lines 22-120, VIP comparison lines 128-176 — no `else`,
retention lines 184-250 — no top-level `else`, activity lines 258-304).
Chart contents are abstracted to the section's own data. -/
def userDashboard (province vip retention activity : List RawRow) : List Out :=
  [ if province.isEmpty then Out.info 1 else Out.chart 1 province,
    if vip.isEmpty then Out.skip else Out.chart 2 vip,
    if retention.isEmpty then Out.skip else Out.chart 3 retention,
    if activity.isEmpty then Out.info 4 else Out.chart 4 activity ]

/-- The section sequence of `marketing_dashboard.py`: a category prelude
(lines 21-28) that errors out and returns when the category list is empty,
then three sections (discount, quarterly, elasticity), each guarded by
`if data: <render> else: st.info(...)` with no early return. -/
def marketingDashboard (categories : List String) (d1 d2 d3 : List RawRow) :
    List Out :=
  if categories.isEmpty then [Out.err]
  else
    [ if d1.isEmpty then Out.info 1 else Out.chart 1 d1,
      if d2.isEmpty then Out.info 2 else Out.chart 2 d2,
      if d3.isEmpty then Out.info 3 else Out.chart 3 d3 ]

/-- C3.  Sections are independent: in both cited controllers, every section
of the ordered section list is executed whatever the other sections'
fetches returned — the output at each position is a function of that
section's own fetch only, the full section list is always rendered (length
4 resp. 3), and a failed/empty fetch produces that section's own
empty-data outcome without affecting any other position
(`user_dashboard.py`, `marketing_dashboard.py`; the marketing category
prelude, which precedes the section list, is assumed to have yielded a
non-empty category list `c :: cs`). -/
theorem sectionsIndependent_spec
    (p v r a p2 v2 r2 a2 : List RawRow) (c : String) (cs : List String)
    (d1 d2 d3 e1 e2 e3 : List RawRow) :
    (userDashboard p v r a).length = 4
    ∧ (userDashboard p v r a).get? 0 = (userDashboard p v2 r2 a2).get? 0
    ∧ (userDashboard p v r a).get? 1 = (userDashboard p2 v r2 a2).get? 1
    ∧ (userDashboard p v r a).get? 2 = (userDashboard p2 v2 r a2).get? 2
    ∧ (userDashboard p v r a).get? 3 = (userDashboard p2 v2 r2 a).get? 3
    ∧ (userDashboard [] v r a).get? 0 = some (Out.info 1)
    ∧ (userDashboard p [] r a).get? 1 = some Out.skip
    ∧ (marketingDashboard (c :: cs) d1 d2 d3).length = 3
    ∧ (marketingDashboard (c :: cs) d1 d2 d3).get? 0
        = (marketingDashboard (c :: cs) d1 e2 e3).get? 0
    ∧ (marketingDashboard (c :: cs) d1 d2 d3).get? 1
        = (marketingDashboard (c :: cs) e1 d2 e3).get? 1
    ∧ (marketingDashboard (c :: cs) d1 d2 d3).get? 2
        = (marketingDashboard (c :: cs) e1 e2 d3).get? 2
    ∧ (marketingDashboard (c :: cs) [] d2 d3).get? 0 = some (Out.info 1) :=
  ⟨rfl, rfl, rfl, rfl, rfl, rfl, rfl, rfl, rfl, rfl, rfl, rfl⟩

/-- C8, counterexample to the claim as stated: not *every* failure yields
the empty list — a connection whose cursor acquisition fails (the
`_conn.cursor(dictionary=True)` call at `utils.py` line 25 precedes the
`try` block) makes the gateway propagate the exception instead of
returning `[]`. -/
theorem call_stored_procedure_counterexample :
    call_stored_procedure (some ⟨false, Except.ok []⟩) = Except.error () := rfl

/-- C8 (amended).  The Procedure Gateway returns the first result set of
the procedure as an ordered list of row mappings, and returns the empty
list without raising on a missing/null connection, on an exception during
the procedure call, and on a call producing no result sets; only an
exception raised while acquiring the cursor — which happens before the
`try` block — propagates (`utils.py` lines 8-42). -/
theorem call_stored_procedure_spec (sets : List (List RawRow))
    (r : List RawRow) (rs : List (List RawRow)) :
    call_stored_procedure none = Except.ok []
    ∧ call_stored_procedure (some ⟨true, Except.error ()⟩) = Except.ok []
    ∧ call_stored_procedure (some ⟨true, Except.ok sets⟩)
        = Except.ok (sets.headD [])
    ∧ call_stored_procedure (some ⟨true, Except.ok []⟩) = Except.ok []
    ∧ call_stored_procedure (some ⟨true, Except.ok (r :: rs)⟩) = Except.ok r :=
  ⟨rfl, rfl, rfl, rfl, rfl⟩

/-- The character of a decimal digit. -/
def digitChar (d : ℕ) : Char := Char.ofNat (48 + d)

/-- Decimal digits of `n`, least significant first (`[]` for `0`). -/
def natDigitsRev (n : ℕ) : List ℕ :=
  if h : n = 0 then [] else n % 10 :: natDigitsRev (n / 10)
termination_by n
decreasing_by exact Nat.div_lt_self (Nat.pos_of_ne_zero h) (by norm_num)

/-- Decimal digits of `n`, most significant first (`[0]` for `0`). -/
def natDigits (n : ℕ) : List ℕ :=
  if n = 0 then [0] else (natDigitsRev n).reverse

/-- Thousands grouping on a least-significant-first digit-character list:
after every three characters that are followed by more, a `','` is
inserted. -/
def commaRev : List Char → List Char
  | a :: b :: c :: d :: rest => a :: b :: c :: ',' :: commaRev (d :: rest)
  | l => l

/-- The integer part of Python's `,` format: decimal digits of `n` with a
thousands separator every three digits. -/
def withCommas (n : ℕ) : List Char :=
  (commaRev (((natDigits n).map digitChar).reverse)).reverse

/-- Exactly two fractional digits, as `.2f` prints `n` hundredths
(`n < 100`). -/
def twoFracChars (n : ℕ) : List Char :=
  [digitChar (n / 10 % 10), digitChar (n % 10)]

/-- Shallow embedding of `utils.format_currency` (`utils.py` lines 70-74):
`"$0.00"` for a null/NaN input (`pd.isna`), otherwise `f"${value:,.2f}"` —
the value rounded to a whole number of cents (ties to even), rendered with
a comma-grouped integer part and exactly two decimals, the sign between
the `$` and the digits. -/
def formatCurrency : Option ℚ → String
  | none => "$0.00"
  | some q =>
    let c : ℤ := roundHalfEven (q * 100)
    let a : ℕ := c.natAbs
    String.mk ('$' :: ((if c < 0 then ['-'] else []) ++ withCommas (a / 100))
      ++ '.' :: twoFracChars (a % 100))

/-- Shallow embedding of `utils.format_percentage` (`utils.py` lines
77-81): `"0.00%"` for a null/NaN input (`pd.isna`), otherwise
`f"{value:.2f}%"` — two decimals, no grouping, a trailing `%`. -/
def formatPercentage : Option ℚ → String
  | none => "0.00%"
  | some q =>
    let c : ℤ := roundHalfEven (q * 100)
    let a : ℕ := c.natAbs
    String.mk (((if c < 0 then ['-'] else []) ++ (natDigits (a / 100)).map digitChar)
      ++ '.' :: twoFracChars (a % 100) ++ ['%'])

theorem digitChar_isDigit (d : ℕ) (h : d < 10) : (digitChar d).isDigit := by
  interval_cases d <;> decide

theorem digitChar_ne_dot (d : ℕ) (h : d < 10) : digitChar d ≠ '.' := by
  interval_cases d <;> decide

theorem natDigitsRev_lt_ten (n : ℕ) : ∀ d ∈ natDigitsRev n, d < 10 := by
  induction n using Nat.strong_induction_on with
  | _ n ih =>
    rw [natDigitsRev]
    split
    · simp
    · rename_i h
      intro d hd
      rcases List.mem_cons.mp hd with rfl | hd2
      · exact Nat.mod_lt n (by norm_num)
      · exact ih (n / 10) (Nat.div_lt_self (Nat.pos_of_ne_zero h) (by norm_num)) d hd2

theorem natDigits_lt_ten (n : ℕ) : ∀ d ∈ natDigits n, d < 10 := by
  rw [natDigits]
  split
  · simp
  · intro d hd
    exact natDigitsRev_lt_ten n d (List.mem_reverse.mp hd)

theorem mem_commaRev (l : List Char) (c : Char) (h : c ∈ commaRev l) :
    c ∈ l ∨ c = ',' := by
  induction l using commaRev.induct with
  | case1 a b c2 d rest ih =>
    rw [commaRev] at h
    rcases List.mem_cons.mp h with rfl | h2
    · exact Or.inl (by simp)
    rcases List.mem_cons.mp h2 with rfl | h3
    · exact Or.inl (by simp)
    rcases List.mem_cons.mp h3 with rfl | h4
    · exact Or.inl (by simp)
    rcases List.mem_cons.mp h4 with rfl | h5
    · exact Or.inr rfl
    · rcases ih h5 with h6 | h6
      · exact Or.inl (by simp at h6 ⊢; tauto)
      · exact Or.inr h6
  | case2 l hne =>
    rw [commaRev] at h
    · exact Or.inl h
    · exact hne

theorem dot_notin_withCommas (n : ℕ) : '.' ∉ withCommas n := by
  intro h
  rw [withCommas] at h
  have h2 := List.mem_reverse.mp h
  rcases mem_commaRev _ _ h2 with h3 | h3
  · have h4 := List.mem_reverse.mp h3
    rcases List.mem_map.mp h4 with ⟨d, hd, hdc⟩
    exact digitChar_ne_dot d (natDigits_lt_ten n d hd) hdc
  · exact absurd h3 (by decide)

theorem dot_notin_digits (n : ℕ) : '.' ∉ (natDigits n).map digitChar := by
  intro h
  rcases List.mem_map.mp h with ⟨d, hd, hdc⟩
  exact digitChar_ne_dot d (natDigits_lt_ten n d hd) hdc

/-- C10.  The currency and percentage formatters are total: a null/NaN
input yields the neutral sentinel strings `"$0.00"` and `"0.00%"` (not an
error), and any numeric input yields a `$`-prefixed (resp. `%`-suffixed)
decimal string with exactly two digits after the unique decimal point
(`utils.py` lines 70-74 and 77-81). -/
theorem formatters_total_spec (q : ℚ) :
    formatCurrency none = "$0.00"
    ∧ formatPercentage none = "0.00%"
    ∧ (∃ s d1 d2, formatCurrency (some q) = String.mk ('$' :: s ++ '.' :: [d1, d2])
        ∧ d1.isDigit ∧ d2.isDigit ∧ '.' ∉ s)
    ∧ (∃ s d1 d2, formatPercentage (some q) = String.mk (s ++ '.' :: [d1, d2] ++ ['%'])
        ∧ d1.isDigit ∧ d2.isDigit ∧ '.' ∉ s) := by
  refine ⟨rfl, rfl, ?_, ?_⟩
  · refine ⟨(if roundHalfEven (q * 100) < 0 then ['-'] else [])
        ++ withCommas ((roundHalfEven (q * 100)).natAbs / 100),
      digitChar ((roundHalfEven (q * 100)).natAbs % 100 / 10 % 10),
      digitChar ((roundHalfEven (q * 100)).natAbs % 100 % 10), rfl, ?_, ?_, ?_⟩
    · exact digitChar_isDigit _ (Nat.mod_lt _ (by norm_num))
    · exact digitChar_isDigit _ (Nat.mod_lt _ (by norm_num))
    · intro hmem
      rcases List.mem_append.mp hmem with h1 | h1
      · by_cases hneg : roundHalfEven (q * 100) < 0
        · rw [if_pos hneg] at h1
          exact absurd (List.mem_singleton.mp h1) (by decide)
        · rw [if_neg hneg] at h1
          exact absurd h1 (List.not_mem_nil _)
      · exact dot_notin_withCommas _ h1
  · refine ⟨(if roundHalfEven (q * 100) < 0 then ['-'] else [])
        ++ (natDigits ((roundHalfEven (q * 100)).natAbs / 100)).map digitChar,
      digitChar ((roundHalfEven (q * 100)).natAbs % 100 / 10 % 10),
      digitChar ((roundHalfEven (q * 100)).natAbs % 100 % 10), rfl, ?_, ?_, ?_⟩
    · exact digitChar_isDigit _ (Nat.mod_lt _ (by norm_num))
    · exact digitChar_isDigit _ (Nat.mod_lt _ (by norm_num))
    · intro hmem
      rcases List.mem_append.mp hmem with h1 | h1
      · by_cases hneg : roundHalfEven (q * 100) < 0
        · rw [if_pos hneg] at h1
          exact absurd (List.mem_singleton.mp h1) (by decide)
        · rw [if_neg hneg] at h1
          exact absurd h1 (List.not_mem_nil _)
      · exact dot_notin_digits _ h1
